import Mathlib

/-!
Shallow embedding of `src/runtime/channel.c` (flapc channel runtime) and
proofs of the specified channel properties.

The channel is a mutex-guarded state machine.  Every critical section of
the C code — the code executed between acquiring the mutex (either at the
top of an operation or on waking from `pthread_cond_wait`) and releasing
it — is modelled as an atomic function on the channel state.  A
`pthread_cond_wait` loop whose guard still holds is modelled by the
function returning `none` ("the caller is still blocked"); because every
wait is wrapped in a `while` over its predicate, the state observed when an
operation finally completes is exactly a state in which the function
returns `some`.  Interleavings of concurrent operations are then arbitrary
sequences of these atomic completions (the `Step` relation below).

The payload type in C is `double`; values are only stored and copied,
never computed with, so they are modelled by an opaque scalar (`Int`),
with `0` standing for the C literal `0.0`.
-/

namespace Flapc

/-- Channel payloads: C `double`, used purely as an opaque scalar. -/
abbrev Val := Int

/-- The `Channel` struct, channel.c lines 17-27.  `buffer` is `none` when
the C pointer is NULL and `some arr` when it points to an allocated array
of `arr.length` doubles.  The mutex and the two condition variables have no
state of their own in this model: mutual exclusion is represented by the
atomicity of each critical-section function, and condvar wakeups by which
guarded completions are enabled. -/
structure Channel where
  buffer : Option (List Val)
  read_idx : Nat
  write_idx : Nat
  count : Nat
  capacity : Nat
  closed : Bool
deriving DecidableEq

/-- Read `buffer[i]` (a NULL buffer or out-of-range index yields the
default `0`; the C code would fault there, and the invariant theorems show
the default is never reached on the paths the code takes). -/
def bufGet (ch : Channel) (i : Nat) : Val :=
  (ch.buffer.getD []).getD i 0

/-- Write `buffer[i] = v`.  On a NULL buffer the C code would fault; the
model leaves the buffer unchanged there. -/
def bufSet (ch : Channel) (i : Nat) (v : Val) : Option (List Val) :=
  ch.buffer.map (fun arr => arr.set i v)

/-- `channel_create` (lines 31-47), parameterised by the outcomes of its
two `malloc` calls: `chAlloc` is whether the `Channel` struct allocation
succeeds (line 32), `ringAlloc` whether the ring allocation at line 39
succeeds.  Note the code checks only the first: a failed ring `malloc`
yields NULL, which is stored in `buffer` unchecked, and the
`pthread_mutex_init` / `pthread_cond_init` results (lines 35-37) are
ignored entirely.  Freshly malloc'd ring contents are unspecified;
modelled as zeros (they are never read before being written). -/
def channel_create (capacity : Nat) (chAlloc ringAlloc : Bool) : Option Channel :=
  if !chAlloc then none                                    -- line 33
  else some
    { buffer := if capacity > 0 then
        (if ringAlloc then some (List.replicate capacity 0) else none)  -- line 39
      else none
      read_idx := 0                                        -- line 40
      write_idx := 0                                       -- line 41
      count := 0                                           -- line 42
      capacity := capacity                                 -- line 43
      closed := false }                                    -- line 44

/-- The buffered branch of `channel_send` (lines 55-80, taken when
`capacity > 0`), condensed across the wait loop at lines 65-67: `none`
means the caller is parked in that loop (`count >= capacity` and not
closed); otherwise the completed critical section returns the status code
and the new state.  Both the entry check at line 58 and the post-wake
check at line 69 are the `closed` test below. -/
def channel_send_buffered (ch : Channel) (v : Val) : Option (Int × Channel) :=
  if ch.closed then some (-1, ch)                          -- lines 58-61, 69-72
  else if ch.capacity ≤ ch.count then none                 -- lines 65-67 (wait)
  else some (0,
    { ch with
      buffer := bufSet ch ch.write_idx v                   -- line 75
      write_idx := (ch.write_idx + 1) % ch.capacity        -- line 76
      count := ch.count + 1 })                             -- line 77

/-- Result of the first half of an unbuffered send: either the send
already returned with a status code, or it deposited its value and is now
parked in the wait loop at lines 108-110. -/
inductive UnbufEnter where
  | ret (code : Int) (ch : Channel)
  | parked (ch : Channel)
deriving DecidableEq

/-- Lines 98-100 of `channel_send`: the lazy single-slot allocation for
the unbuffered hand-off.  `allocOk` is the outcome of the `malloc` at line
99 (unchecked in the C).  Malloc'd contents are unspecified; modelled as
`[0]` (the slot is written before it is ever read). -/
def depositBuf (b : Option (List Val)) (allocOk : Bool) : Option (List Val) :=
  match b with
  | none => if allocOk then some [0] else none             -- lines 98-100
  | some arr => some arr

/-- First half of the unbuffered branch of `channel_send` (lines 55-61 and
85-105, taken when `capacity == 0`): from mutex acquisition up to the
signal after depositing.  `none` means the caller is parked in the wait
loop at lines 87-89 (`count > 0` and not closed).  On a failed lazy
allocation, line 101 would write through NULL; the model leaves the buffer
NULL. -/
def channel_send_unbuffered_enter (ch : Channel) (v : Val) (allocOk : Bool) :
    Option UnbufEnter :=
  if ch.closed then some (.ret (-1) ch)                    -- lines 58-61, 92-95
  else if 0 < ch.count then none                           -- lines 85-90 (wait)
  else
    some (.parked
      { ch with
        buffer := (depositBuf ch.buffer allocOk).map
          (fun arr => arr.set 0 v)                         -- line 101
        count := 1 })                                      -- line 102

/-- Second half of the unbuffered send (lines 108-114): the deposited
sender waits until its value is consumed or the channel is closed, then
returns.  `none` means still parked (`count > 0` and not closed).  Note
the C code performs no `closed` re-check after this final wait loop: it
returns `0` unconditionally — even when the loop was exited because
`closed` became true while `count` was still 1. -/
def channel_send_unbuffered_resume (ch : Channel) : Option (Int × Channel) :=
  if 0 < ch.count ∧ ch.closed = false then none            -- lines 108-110 (wait)
  else some (0, ch)                                        -- lines 113-114

/-- The locked body of `channel_recv` (lines 123-155), condensed across
the wait loop at lines 126-128; `none` means parked there (`count == 0`
and not closed).  The C function returns a bare `double`, using `0.0` as
the drained-closed sentinel (line 133); the model returns the value paired
with a `present` flag recording which return path was taken (`false`
exactly for the drained-closed return at line 133). -/
def channel_recv_locked (ch : Channel) : Option ((Val × Bool) × Channel) :=
  if ch.count = 0 ∧ ch.closed = false then none            -- lines 126-128 (wait)
  else if ch.count = 0 ∧ ch.closed = true then
    some ((0, false), ch)                                  -- lines 131-134
  else if 0 < ch.capacity then
    some ((bufGet ch ch.read_idx, true),                   -- line 139
      { ch with
        read_idx := (ch.read_idx + 1) % ch.capacity        -- line 140
        count := ch.count - 1 })                           -- line 141
  else
    some ((bufGet ch 0, true),                             -- line 147
      { ch with count := 0 })                              -- line 148

/-- The locked body of `channel_close` (lines 164-172): sets the closed
flag and broadcasts both condition variables (the broadcasts reach the
model as the re-enabled guarded completions of parked peers). -/
def channel_close_locked (ch : Channel) : Channel :=
  { ch with closed := true }                               -- line 166

/-- What `channel_send` does before touching the mutex (lines 51-55):
either it returns a code at once (null handle), or it proceeds to lock the
mutex on the pointed-to channel. -/
inductive SendEntry where
  | ret (code : Int)
  | lock (ch : Channel)
deriving DecidableEq

/-- Lines 51-55 of `channel_send`: the null-handle check happens before
the mutex is acquired and before any channel state is read or written. -/
def channel_send_entry (h : Option Channel) : SendEntry :=
  match h with
  | none => .ret (-1)                                      -- line 52
  | some ch => .lock ch                                    -- line 55

/-- What `channel_recv` does before touching the mutex (lines 119-123). -/
inductive RecvEntry where
  | ret (v : Val) (present : Bool)
  | lock (ch : Channel)
deriving DecidableEq

/-- Lines 119-123 of `channel_recv`: the null-handle check happens before
the mutex is acquired and before any channel state is read or written.
The `present` flag is `false`: the C line 120 returns the sentinel 0.0. -/
def channel_recv_entry (h : Option Channel) : RecvEntry :=
  match h with
  | none => .ret 0 false                                   -- line 120
  | some ch => .lock ch                                    -- line 123

/-- One observable atomic completion on a channel.  `deposit` and
`sendFinish` are the two halves of an unbuffered send; every other
operation is a single critical section. -/
inductive Event where
  | sendOk (v : Val)
  | sendClosed
  | deposit (v : Val) (allocOk : Bool)
  | sendFinish
  | recvVal (v : Val)
  | recvClosed
  | close
deriving DecidableEq

/-- The atomic-step relation: `Step ch e ch'` holds when the critical
section named by `e` can complete from state `ch`, leaving state `ch'`.
Each constructor is phrased as an equation on the corresponding
transcription function above, so that a step exists exactly when the C
code, woken in state `ch`, would run to its next mutex release. -/
inductive Step : Channel → Event → Channel → Prop where
  | sendOk {ch v ch'} :
      0 < ch.capacity →
      channel_send_buffered ch v = some (0, ch') →
      Step ch (.sendOk v) ch'
  | sendClosedBuf {ch v ch'} :
      0 < ch.capacity →
      channel_send_buffered ch v = some (-1, ch') →
      Step ch .sendClosed ch'
  | deposit {ch v a ch'} :
      ch.capacity = 0 →
      channel_send_unbuffered_enter ch v a = some (.parked ch') →
      Step ch (.deposit v a) ch'
  | sendClosedUnbuf {ch v a ch'} :
      ch.capacity = 0 →
      channel_send_unbuffered_enter ch v a = some (.ret (-1) ch') →
      Step ch .sendClosed ch'
  | sendFinish {ch r ch'} :
      ch.capacity = 0 →
      channel_send_unbuffered_resume ch = some (r, ch') →
      Step ch .sendFinish ch'
  | recvVal {ch v ch'} :
      channel_recv_locked ch = some ((v, true), ch') →
      Step ch (.recvVal v) ch'
  | recvClosed {ch v ch'} :
      channel_recv_locked ch = some ((v, false), ch') →
      Step ch .recvClosed ch'
  | close {ch} :
      Step ch .close (channel_close_locked ch)

/-- An execution: a sequence of atomic completions. -/
inductive Exec : Channel → List Event → Channel → Prop where
  | nil {ch} : Exec ch [] ch
  | cons {ch e ch' es ch''} :
      Step ch e ch' → Exec ch' es ch'' → Exec ch (e :: es) ch''

/-- Values enqueued by completed buffered sends, in completion
(mutex-acquisition) order. -/
def sentVals : List Event → List Val
  | [] => []
  | .sendOk v :: es => v :: sentVals es
  | _ :: es => sentVals es

/-- Values returned by completed receives (present-path only), in
completion order. -/
def receivedVals : List Event → List Val
  | [] => []
  | .recvVal v :: es => v :: receivedVals es
  | _ :: es => receivedVals es

/-- `true` when every unbuffered deposit in the trace had its lazy
single-slot allocation succeed. -/
def allocsOk : List Event → Bool
  | [] => true
  | .deposit _ a :: es => a && allocsOk es
  | _ :: es => allocsOk es

/-- The value a single event enqueues (nonempty only for a buffered
send completion). -/
def evSent : Event → List Val
  | .sendOk v => [v]
  | _ => []

/-- The value a single event dequeues (nonempty only for a present-path
receive completion). -/
def evRecv : Event → List Val
  | .recvVal v => [v]
  | _ => []

/-- Events that are steps of some `channel_send` call. -/
def isSendEvent : Event → Prop
  | .sendOk _ => True
  | .sendClosed => True
  | .deposit _ _ => True
  | .sendFinish => True
  | _ => False

/-- The queue a channel currently holds: the `count` values starting at
`read_idx`, in ring order.  (For an unbuffered channel `capacity = 0`, so
`% capacity` is the identity and under the unbuffered invariant
`read_idx = 0`, this is the single parked value when `count = 1`.) -/
def queueOf (ch : Channel) : List Val :=
  (List.range ch.count).map (fun i => bufGet ch ((ch.read_idx + i) % ch.capacity))

/-- Well-formedness of a buffered channel state: allocated ring of length
`capacity`, indices in range, and the ring discipline linking
`write_idx`, `read_idx` and `count`. -/
def WFbuf (ch : Channel) : Prop :=
  0 < ch.capacity ∧
  ch.buffer.isSome = true ∧
  (ch.buffer.getD []).length = ch.capacity ∧
  ch.read_idx < ch.capacity ∧
  ch.count ≤ ch.capacity ∧
  ch.write_idx = (ch.read_idx + ch.count) % ch.capacity

/-- Well-formedness of an unbuffered channel state (the part independent
of allocation outcomes). -/
def WFunbuf (ch : Channel) : Prop :=
  ch.capacity = 0 ∧ ch.read_idx = 0 ∧ ch.write_idx = 0 ∧ ch.count ≤ 1

/-- The wait guard of a buffered send (line 65): the ring is full exactly
when a sender would block. -/
def ringFull (ch : Channel) : Prop :=
  ch.capacity ≤ ch.count

/-- Iterated receives: `recvN n ch` performs up to `n` completed
`channel_recv` critical sections, collecting the `(value, present)`
results.  If a receive would block (`channel_recv_locked` returns `none`,
impossible on a closed channel) the iteration stops. -/
def recvN : Nat → Channel → List (Val × Bool) × Channel
  | 0, ch => ([], ch)
  | n + 1, ch =>
    match channel_recv_locked ch with
    | none => ([], ch)
    | some (r, ch') =>
      let p := recvN n ch'
      (r :: p.1, p.2)

/-- The unbuffered allocation invariant: the hand-off slot is either still
NULL or a single allocated cell, and whenever a value is parked
(`count = 1`) the slot is allocated — the deposit at lines 98-102 performs
the allocation before setting `count`. -/
def UnbufAllocInv (ch : Channel) : Prop :=
  (ch.buffer = none ∨ ∃ a, ch.buffer = some [a]) ∧
  (ch.count = 1 → ∃ a, ch.buffer = some [a])

/-! Concrete states and traces used to instantiate the theorems below. -/

/-- `channel_create 1` with all allocations succeeding. -/
def fifoCh0 : Channel := ⟨some [0], 0, 0, 0, 1, false⟩

/-- `fifoCh0` after a completed `channel_send` of `5`. -/
def fifoCh1 : Channel := ⟨some [5], 0, 0, 1, 1, false⟩

/-- `fifoCh1` after a completed `channel_recv`. -/
def fifoCh2 : Channel := ⟨some [5], 0, 0, 0, 1, false⟩

/-- A capacity-2 channel holding `7, 8`, already closed. -/
def chDrain : Channel := ⟨some [7, 8], 0, 0, 2, 2, true⟩

/-- An empty, closed capacity-1 channel. -/
def chClosed : Channel := ⟨some [0], 0, 0, 0, 1, true⟩

/-- `channel_create 0` (unbuffered; ring left NULL). -/
def unbCh0 : Channel := ⟨none, 0, 0, 0, 0, false⟩

/-- `unbCh0` after an unbuffered send deposited `9` (lazy slot
allocated). -/
def unbCh1 : Channel := ⟨some [9], 0, 0, 1, 0, false⟩

/-! ### List and modular-arithmetic helpers -/

theorem getD_set_self {arr : List Val} {w : Nat} (v : Val) (hw : w < arr.length) :
    (arr.set w v).getD w 0 = v := by
  rw [List.getD_eq_getElem _ _ (by simpa using hw)]
  exact List.getElem_set_self (h := by simpa using hw)

theorem getD_set_ne (arr : List Val) (w j : Nat) (v : Val) (hne : j ≠ w) :
    (arr.set w v).getD j 0 = arr.getD j 0 := by
  by_cases hj : j < arr.length
  · rw [List.getD_eq_getElem _ _ (by simpa using hj), List.getD_eq_getElem _ _ hj]
    exact List.getElem_set_ne (by simpa using fun h => hne h.symm) ..
  · rw [List.getD_eq_default _ _ (by simpa using Nat.le_of_not_lt hj),
        List.getD_eq_default _ _ (Nat.le_of_not_lt hj)]

theorem ring_idx_ne {r i c cap : Nat} (hi : i < c) (hc : c < cap) :
    (r + i) % cap ≠ (r + c) % cap := by
  intro h
  have h2 : i % cap = c % cap := Nat.ModEq.add_left_cancel' r h
  rw [Nat.mod_eq_of_lt (lt_trans hi hc), Nat.mod_eq_of_lt hc] at h2
  omega

/-! ### Inversion lemmas for the critical-section functions

Each lemma recovers, from the fact that a critical section completed with
a particular result, which branch of the C code ran and what the resulting
state is. -/

theorem send_buffered_closed {ch : Channel} (v : Val) (h : ch.closed = true) :
    channel_send_buffered ch v = some (-1, ch) := by
  simp [channel_send_buffered, h]

theorem send_buffered_ok_inv {ch : Channel} {v : Val} {ch' : Channel}
    (h : channel_send_buffered ch v = some (0, ch')) :
    ch.closed = false ∧ ch.count < ch.capacity ∧
    ch' = { ch with
      buffer := bufSet ch ch.write_idx v
      write_idx := (ch.write_idx + 1) % ch.capacity
      count := ch.count + 1 } := by
  unfold channel_send_buffered at h
  split_ifs at h with h1 h2
  · simp at h
  · simp only [Option.some.injEq, Prod.mk.injEq, true_and] at h
    exact ⟨by simpa using h1, by omega, h.symm⟩

theorem send_buffered_neg_inv {ch : Channel} {v : Val} {ch' : Channel}
    (h : channel_send_buffered ch v = some (-1, ch')) :
    ch' = ch ∧ ch.closed = true := by
  unfold channel_send_buffered at h
  split_ifs at h with h1 h2
  · simp only [Option.some.injEq, Prod.mk.injEq, true_and] at h
    exact ⟨h.symm, h1⟩
  · simp at h

theorem send_unbuf_enter_closed {ch : Channel} (v : Val) (a : Bool)
    (h : ch.closed = true) :
    channel_send_unbuffered_enter ch v a = some (.ret (-1) ch) := by
  simp [channel_send_unbuffered_enter, h]

theorem send_unbuf_enter_ret_inv {ch : Channel} {v : Val} {a : Bool} {code : Int}
    {ch' : Channel}
    (h : channel_send_unbuffered_enter ch v a = some (.ret code ch')) :
    code = -1 ∧ ch' = ch ∧ ch.closed = true := by
  unfold channel_send_unbuffered_enter at h
  split_ifs at h with h1 h2
  · simp only [Option.some.injEq, UnbufEnter.ret.injEq] at h
    exact ⟨h.1.symm, h.2.symm, h1⟩
  · simp at h

theorem send_unbuf_enter_parked_inv {ch : Channel} {v : Val} {a : Bool}
    {ch' : Channel}
    (h : channel_send_unbuffered_enter ch v a = some (.parked ch')) :
    ch.closed = false ∧ ch.count = 0 ∧
    ch' = { ch with
      buffer := (depositBuf ch.buffer a).map (fun arr => arr.set 0 v)
      count := 1 } := by
  unfold channel_send_unbuffered_enter at h
  split_ifs at h with h1 h2
  · simp at h
  · simp only [Option.some.injEq, UnbufEnter.parked.injEq] at h
    exact ⟨by simpa using h1, by omega, h.symm⟩

theorem send_unbuf_resume_inv {ch : Channel} {r : Int} {ch' : Channel}
    (h : channel_send_unbuffered_resume ch = some (r, ch')) :
    r = 0 ∧ ch' = ch ∧ (ch.count = 0 ∨ ch.closed = true) := by
  unfold channel_send_unbuffered_resume at h
  split_ifs at h with h1
  simp only [Option.some.injEq, Prod.mk.injEq] at h
  refine ⟨h.1.symm, h.2.symm, ?_⟩
  rcases Decidable.not_and_iff_or_not.mp h1 with h' | h'
  · exact Or.inl (by omega)
  · exact Or.inr (by simpa using h')

theorem recv_locked_drained {ch : Channel} (h0 : ch.count = 0)
    (hcl : ch.closed = true) :
    channel_recv_locked ch = some ((0, false), ch) := by
  simp [channel_recv_locked, h0, hcl]

theorem recv_locked_absent_inv {ch : Channel} {v : Val} {ch' : Channel}
    (h : channel_recv_locked ch = some ((v, false), ch')) :
    v = 0 ∧ ch' = ch ∧ ch.count = 0 ∧ ch.closed = true := by
  unfold channel_recv_locked at h
  split_ifs at h with h1 h2 h3
  · simp only [Option.some.injEq, Prod.mk.injEq, and_true] at h
    exact ⟨h.1.symm, h.2.symm, h2.1, h2.2⟩
  · simp at h
  · simp at h

theorem recv_locked_present_inv {ch : Channel} {v : Val} {ch' : Channel}
    (h : channel_recv_locked ch = some ((v, true), ch')) :
    0 < ch.count ∧
    ((0 < ch.capacity ∧ v = bufGet ch ch.read_idx ∧
        ch' = { ch with
          read_idx := (ch.read_idx + 1) % ch.capacity
          count := ch.count - 1 }) ∨
     (ch.capacity = 0 ∧ v = bufGet ch 0 ∧ ch' = { ch with count := 0 })) := by
  have hcnt : 0 < ch.count := by
    by_contra hc
    have h0 : ch.count = 0 := by omega
    unfold channel_recv_locked at h
    rcases hcl : ch.closed with _ | _
    · simp [h0, hcl] at h
    · simp [h0, hcl] at h
  unfold channel_recv_locked at h
  split_ifs at h with h1 h2 h3
  · simp at h
  · simp only [Option.some.injEq, Prod.mk.injEq, and_true] at h
    exact ⟨hcnt, Or.inl ⟨h3, h.1.symm, h.2.symm⟩⟩
  · simp only [Option.some.injEq, Prod.mk.injEq, and_true] at h
    exact ⟨hcnt, Or.inr ⟨by omega, h.1.symm, h.2.symm⟩⟩

/-! ### Creation -/

theorem create_ok {k : Nat} :
    channel_create k true true =
      some ⟨if k > 0 then some (List.replicate k 0) else none, 0, 0, 0, k, false⟩ :=
  rfl

theorem WFbuf_create {k : Nat} (hk : 0 < k) {ch : Channel}
    (hc : channel_create k true true = some ch) : WFbuf ch := by
  rw [create_ok] at hc
  obtain rfl := Option.some.inj hc
  refine ⟨hk, ?_, ?_, hk, Nat.zero_le _, by simp⟩
  · simp [hk]
  · simp [hk]

theorem WFunbuf_create {ch : Channel}
    (hc : channel_create 0 true true = some ch) : WFunbuf ch := by
  rw [create_ok] at hc
  obtain rfl := Option.some.inj hc
  exact ⟨rfl, rfl, rfl, Nat.zero_le 1⟩

/-! ### Ring-queue abstraction -/

theorem queueOf_enqueue {ch : Channel} {v : Val} (hw : WFbuf ch)
    (hcnt : ch.count < ch.capacity) :
    queueOf { ch with
      buffer := bufSet ch ch.write_idx v
      write_idx := (ch.write_idx + 1) % ch.capacity
      count := ch.count + 1 } = queueOf ch ++ [v] := by
  obtain ⟨hcap, hsome, hlen, hr, hc, hwix⟩ := hw
  obtain ⟨arr, harr⟩ := Option.isSome_iff_exists.mp hsome
  have hgetD : ch.buffer.getD [] = arr := by rw [harr]; rfl
  have hlen' : arr.length = ch.capacity := by rwa [hgetD] at hlen
  have hwlt : ch.write_idx < ch.capacity := by
    rw [hwix]; exact Nat.mod_lt _ hcap
  have hbs : (bufSet ch ch.write_idx v).getD [] = arr.set ch.write_idx v := by
    unfold bufSet; rw [harr]; rfl
  unfold queueOf bufGet
  show (List.range (ch.count + 1)).map
      (fun i => ((bufSet ch ch.write_idx v).getD []).getD
        ((ch.read_idx + i) % ch.capacity) 0) = _
  simp only [hbs, hgetD]
  rw [List.range_succ, List.map_append, List.map_singleton]
  congr 1
  · refine List.map_congr_left ?_
    intro i hi
    rw [List.mem_range] at hi
    exact getD_set_ne arr ch.write_idx _ v
      (hwix ▸ ring_idx_ne hi hcnt)
  · rw [show (ch.read_idx + ch.count) % ch.capacity = ch.write_idx from hwix.symm]
    rw [getD_set_self v (by rw [hlen']; exact hwlt)]

theorem queueOf_dequeue {ch : Channel} (hw : WFbuf ch) (hc0 : 0 < ch.count) :
    queueOf ch = bufGet ch ch.read_idx ::
      queueOf { ch with
        read_idx := (ch.read_idx + 1) % ch.capacity
        count := ch.count - 1 } := by
  obtain ⟨hcap, hsome, hlen, hr, hc, hwix⟩ := hw
  obtain ⟨m, hm⟩ : ∃ m, ch.count = m + 1 := ⟨ch.count - 1, by omega⟩
  unfold queueOf bufGet
  show (List.range ch.count).map _
      = (ch.buffer.getD []).getD ch.read_idx 0
        :: (List.range (ch.count - 1)).map _
  rw [hm, Nat.add_sub_cancel]
  rw [show List.range (m + 1) = 0 :: (List.range m).map Nat.succ by
    simpa using List.range_succ_eq_map m]
  rw [List.map_cons, List.map_map]
  congr 1
  · rw [Nat.add_zero, Nat.mod_eq_of_lt hr]
  · refine List.map_congr_left ?_
    intro i hi
    simp only [Function.comp_apply]
    rw [Nat.mod_add_mod]
    rw [show ch.read_idx + Nat.succ i = ch.read_idx + 1 + i by omega]

theorem WFbuf_enqueue {ch : Channel} {v : Val} (hw : WFbuf ch)
    (hcnt : ch.count < ch.capacity) :
    WFbuf { ch with
      buffer := bufSet ch ch.write_idx v
      write_idx := (ch.write_idx + 1) % ch.capacity
      count := ch.count + 1 } := by
  obtain ⟨hcap, hsome, hlen, hr, hc, hwix⟩ := hw
  obtain ⟨arr, harr⟩ := Option.isSome_iff_exists.mp hsome
  have hgetD : ch.buffer.getD [] = arr := by rw [harr]; rfl
  have hbs : (bufSet ch ch.write_idx v).getD [] = arr.set ch.write_idx v := by
    unfold bufSet; rw [harr]; rfl
  refine ⟨hcap, ?_, ?_, hr, by show ch.count + 1 ≤ ch.capacity; omega, ?_⟩
  · show (bufSet ch ch.write_idx v).isSome = true
    unfold bufSet; rw [harr]; rfl
  · show ((bufSet ch ch.write_idx v).getD []).length = ch.capacity
    rw [hbs, List.length_set, ← hgetD]
    exact hlen
  · show (ch.write_idx + 1) % ch.capacity = (ch.read_idx + (ch.count + 1)) % ch.capacity
    rw [hwix, Nat.mod_add_mod]
    congr 1

theorem WFbuf_dequeue {ch : Channel} (hw : WFbuf ch) (hc0 : 0 < ch.count) :
    WFbuf { ch with
      read_idx := (ch.read_idx + 1) % ch.capacity
      count := ch.count - 1 } := by
  obtain ⟨hcap, hsome, hlen, hr, hc, hwix⟩ := hw
  refine ⟨hcap, hsome, hlen, Nat.mod_lt _ hcap,
    by show ch.count - 1 ≤ ch.capacity; omega, ?_⟩
  show ch.write_idx = ((ch.read_idx + 1) % ch.capacity + (ch.count - 1)) % ch.capacity
  rw [Nat.mod_add_mod, hwix]
  congr 1
  omega

theorem WFbuf_close {ch : Channel} (hw : WFbuf ch) :
    WFbuf (channel_close_locked ch) := hw

theorem queueOf_close {ch : Channel} :
    queueOf (channel_close_locked ch) = queueOf ch := rfl

/-! ### Step-level facts -/

theorem step_capacity {ch : Channel} {e : Event} {ch' : Channel}
    (hs : Step ch e ch') : ch'.capacity = ch.capacity := by
  cases hs with
  | sendOk hcap h => obtain ⟨-, -, rfl⟩ := send_buffered_ok_inv h; rfl
  | sendClosedBuf hcap h => obtain ⟨rfl, -⟩ := send_buffered_neg_inv h; rfl
  | deposit hcap h => obtain ⟨-, -, rfl⟩ := send_unbuf_enter_parked_inv h; rfl
  | sendClosedUnbuf hcap h => obtain ⟨-, rfl, -⟩ := send_unbuf_enter_ret_inv h; rfl
  | sendFinish hcap h => obtain ⟨-, rfl, -⟩ := send_unbuf_resume_inv h; rfl
  | recvVal h =>
      obtain ⟨-, hcase⟩ := recv_locked_present_inv h
      rcases hcase with ⟨-, -, rfl⟩ | ⟨-, -, rfl⟩ <;> rfl
  | recvClosed h => obtain ⟨-, rfl, -, -⟩ := recv_locked_absent_inv h; rfl
  | close => rfl

theorem step_closed_mono {ch : Channel} {e : Event} {ch' : Channel}
    (hcl : ch.closed = true) (hs : Step ch e ch') : ch'.closed = true := by
  cases hs with
  | sendOk hcap h =>
      obtain ⟨hfalse, -, -⟩ := send_buffered_ok_inv h
      rw [hcl] at hfalse; cases hfalse
  | sendClosedBuf hcap h => obtain ⟨rfl, -⟩ := send_buffered_neg_inv h; exact hcl
  | deposit hcap h =>
      obtain ⟨hfalse, -, -⟩ := send_unbuf_enter_parked_inv h
      rw [hcl] at hfalse; cases hfalse
  | sendClosedUnbuf hcap h =>
      obtain ⟨-, rfl, -⟩ := send_unbuf_enter_ret_inv h; exact hcl
  | sendFinish hcap h => obtain ⟨-, rfl, -⟩ := send_unbuf_resume_inv h; exact hcl
  | recvVal h =>
      obtain ⟨-, hcase⟩ := recv_locked_present_inv h
      rcases hcase with ⟨-, -, rfl⟩ | ⟨-, -, rfl⟩ <;> exact hcl
  | recvClosed h => obtain ⟨-, rfl, -, -⟩ := recv_locked_absent_inv h; exact hcl
  | close => rfl

theorem step_queue_buf {ch : Channel} {e : Event} {ch' : Channel}
    (hw : WFbuf ch) (hs : Step ch e ch') :
    WFbuf ch' ∧ queueOf ch ++ evSent e = evRecv e ++ queueOf ch' := by
  cases hs with
  | sendOk hcap h =>
      obtain ⟨hcl, hcnt, rfl⟩ := send_buffered_ok_inv h
      exact ⟨WFbuf_enqueue hw hcnt, by
        simp [evSent, evRecv, queueOf_enqueue hw hcnt]⟩
  | sendClosedBuf hcap h =>
      obtain ⟨rfl, -⟩ := send_buffered_neg_inv h
      exact ⟨hw, by simp [evSent, evRecv]⟩
  | deposit hcap h => exact absurd hw.1 (by omega)
  | sendClosedUnbuf hcap h => exact absurd hw.1 (by omega)
  | sendFinish hcap h => exact absurd hw.1 (by omega)
  | recvVal h =>
      obtain ⟨hcnt, hcase⟩ := recv_locked_present_inv h
      rcases hcase with ⟨-, hv, rfl⟩ | ⟨hzero, -, -⟩
      · refine ⟨WFbuf_dequeue hw hcnt, ?_⟩
        rw [hv]
        simpa [evSent, evRecv] using queueOf_dequeue hw hcnt
      · exact absurd hw.1 (by omega)
  | recvClosed h =>
      obtain ⟨-, rfl, -, -⟩ := recv_locked_absent_inv h
      exact ⟨hw, by simp [evSent, evRecv]⟩
  | close => exact ⟨WFbuf_close hw, by simp [queueOf_close, evSent, evRecv]⟩

theorem sentVals_cons (e : Event) (es : List Event) :
    sentVals (e :: es) = evSent e ++ sentVals es := by
  cases e <;> rfl

theorem receivedVals_cons (e : Event) (es : List Event) :
    receivedVals (e :: es) = evRecv e ++ receivedVals es := by
  cases e <;> rfl

theorem exec_queue_buf {ch : Channel} {evs : List Event} {ch' : Channel}
    (hx : Exec ch evs ch') :
    WFbuf ch →
    WFbuf ch' ∧ queueOf ch ++ sentVals evs = receivedVals evs ++ queueOf ch' := by
  induction hx with
  | nil => exact fun hw => ⟨hw, by simp [sentVals, receivedVals]⟩
  | cons hstep hrest ih =>
      intro hw
      obtain ⟨hw1, hq1⟩ := step_queue_buf hw hstep
      obtain ⟨hw2, hq2⟩ := ih hw1
      refine ⟨hw2, ?_⟩
      rw [sentVals_cons, receivedVals_cons, ← List.append_assoc, hq1,
        List.append_assoc, hq2, ← List.append_assoc]

theorem step_unbuf {ch : Channel} {e : Event} {ch' : Channel}
    (hw : WFunbuf ch) (hs : Step ch e ch') : WFunbuf ch' := by
  obtain ⟨hcap0, hr0, hw0, hc1⟩ := hw
  cases hs with
  | sendOk hcap h => exact absurd hcap (by omega)
  | sendClosedBuf hcap h => exact absurd hcap (by omega)
  | deposit hcap h =>
      obtain ⟨-, -, rfl⟩ := send_unbuf_enter_parked_inv h
      exact ⟨hcap0, hr0, hw0, le_refl 1⟩
  | sendClosedUnbuf hcap h =>
      obtain ⟨-, rfl, -⟩ := send_unbuf_enter_ret_inv h
      exact ⟨hcap0, hr0, hw0, hc1⟩
  | sendFinish hcap h =>
      obtain ⟨-, rfl, -⟩ := send_unbuf_resume_inv h
      exact ⟨hcap0, hr0, hw0, hc1⟩
  | recvVal h =>
      obtain ⟨hcnt, hcase⟩ := recv_locked_present_inv h
      rcases hcase with ⟨hpos, -, -⟩ | ⟨-, -, rfl⟩
      · exact absurd hpos (by omega)
      · exact ⟨hcap0, hr0, hw0, Nat.zero_le 1⟩
  | recvClosed h =>
      obtain ⟨-, rfl, -, -⟩ := recv_locked_absent_inv h
      exact ⟨hcap0, hr0, hw0, hc1⟩
  | close => exact ⟨hcap0, hr0, hw0, hc1⟩

theorem allocsOk_cons {e : Event} {es : List Event}
    (h : allocsOk (e :: es) = true) :
    (∀ v b, e = .deposit v b → b = true) ∧ allocsOk es = true := by
  cases e with
  | deposit v a =>
      have h' : a = true ∧ allocsOk es = true := by
        simpa [allocsOk, Bool.and_eq_true] using h
      exact ⟨fun v' b hb => (by cases hb; exact h'.1), h'.2⟩
  | sendOk v => exact ⟨fun _ _ hb => (nomatch hb), h⟩
  | sendClosed => exact ⟨fun _ _ hb => (nomatch hb), h⟩
  | sendFinish => exact ⟨fun _ _ hb => (nomatch hb), h⟩
  | recvVal v => exact ⟨fun _ _ hb => (nomatch hb), h⟩
  | recvClosed => exact ⟨fun _ _ hb => (nomatch hb), h⟩
  | close => exact ⟨fun _ _ hb => (nomatch hb), h⟩

theorem step_unbuf_alloc {ch : Channel} {e : Event} {ch' : Channel}
    (hw : WFunbuf ch) (ha : UnbufAllocInv ch) (hs : Step ch e ch')
    (hok : ∀ v b, e = .deposit v b → b = true) :
    UnbufAllocInv ch' := by
  cases hs with
  | sendOk hcap h => exact absurd hcap (by rw [hw.1]; omega)
  | sendClosedBuf hcap h => exact absurd hcap (by rw [hw.1]; omega)
  | deposit hcap h =>
      obtain ⟨-, -, rfl⟩ := send_unbuf_enter_parked_inv h
      rename_i v a
      have hb : a = true := hok v a rfl
      subst hb
      have hbuf : (depositBuf ch.buffer true).map (fun arr => arr.set 0 v)
          = some [v] := by
        rcases ha.1 with hnone | ⟨x, hx⟩
        · rw [hnone]; rfl
        · rw [hx]; rfl
      exact ⟨Or.inr ⟨v, hbuf⟩, fun _ => ⟨v, hbuf⟩⟩
  | sendClosedUnbuf hcap h =>
      obtain ⟨-, rfl, -⟩ := send_unbuf_enter_ret_inv h; exact ha
  | sendFinish hcap h =>
      obtain ⟨-, rfl, -⟩ := send_unbuf_resume_inv h; exact ha
  | recvVal h =>
      obtain ⟨-, hcase⟩ := recv_locked_present_inv h
      rcases hcase with ⟨hpos, -, -⟩ | ⟨-, -, rfl⟩
      · exact absurd hpos (by rw [hw.1]; omega)
      · exact ⟨ha.1, fun h1 => by simp at h1⟩
  | recvClosed h =>
      obtain ⟨-, rfl, -, -⟩ := recv_locked_absent_inv h; exact ha
  | close => exact ⟨ha.1, ha.2⟩

theorem exec_unbuf_alloc {ch : Channel} {evs : List Event} {ch' : Channel}
    (hx : Exec ch evs ch') :
    WFunbuf ch → UnbufAllocInv ch → allocsOk evs = true →
    WFunbuf ch' ∧ UnbufAllocInv ch' := by
  induction hx with
  | nil => exact fun hw ha _ => ⟨hw, ha⟩
  | cons hstep hrest ih =>
      intro hw ha hok
      obtain ⟨hok1, hok2⟩ := allocsOk_cons hok
      exact ih (step_unbuf hw hstep) (step_unbuf_alloc hw ha hstep hok1) hok2

theorem exec_unbuf {ch : Channel} {evs : List Event} {ch' : Channel}
    (hx : Exec ch evs ch') : WFunbuf ch → WFunbuf ch' := by
  induction hx with
  | nil => exact id
  | cons hstep hrest ih => exact fun hw => ih (step_unbuf hw hstep)

/-! ### Iterated receives and draining -/

theorem recv_locked_deq_buf {ch : Channel} (hcap : 0 < ch.capacity)
    (hcnt : 0 < ch.count) :
    channel_recv_locked ch = some ((bufGet ch ch.read_idx, true),
      { ch with
        read_idx := (ch.read_idx + 1) % ch.capacity
        count := ch.count - 1 }) := by
  unfold channel_recv_locked
  rw [if_neg (by rintro ⟨h1, -⟩; omega), if_neg (by rintro ⟨h1, -⟩; omega),
    if_pos hcap]

theorem recv_locked_deq_unbuf {ch : Channel} (hcap : ch.capacity = 0)
    (hcnt : 0 < ch.count) :
    channel_recv_locked ch = some ((bufGet ch 0, true),
      { ch with count := 0 }) := by
  unfold channel_recv_locked
  rw [if_neg (by rintro ⟨h1, -⟩; omega), if_neg (by rintro ⟨h1, -⟩; omega),
    if_neg (by omega)]

theorem queueOf_unbuf_one {ch : Channel} (hw : WFunbuf ch)
    (hc : ch.count = 1) : queueOf ch = [bufGet ch 0] := by
  unfold queueOf
  rw [hc, hw.2.1, hw.1]
  rfl

theorem queueOf_empty {ch : Channel} (h0 : ch.count = 0) : queueOf ch = [] := by
  unfold queueOf
  rw [h0]
  rfl

theorem recvN_drained {n : Nat} {ch : Channel} (h0 : ch.count = 0)
    (hcl : ch.closed = true) :
    recvN n ch = (List.replicate n ((0 : Val), false), ch) := by
  induction n with
  | zero => rfl
  | succ m ih =>
      show (match channel_recv_locked ch with
        | none => ([], ch)
        | some (r, ch') => ((r :: (recvN m ch').1, (recvN m ch').2))) = _
      rw [recv_locked_drained h0 hcl]
      simp [ih, List.replicate_succ]

theorem recvN_drain_aux : ∀ (c : Nat) {ch : Channel} {n : Nat},
    (WFbuf ch ∨ WFunbuf ch) → ch.closed = true → ch.count = c → c ≤ n →
    (recvN n ch).1 = (queueOf ch).map (fun v => (v, true))
        ++ List.replicate (n - c) ((0 : Val), false) ∧
    (recvN n ch).2.count = 0 ∧ (recvN n ch).2.closed = true := by
  intro c
  induction c with
  | zero =>
      intro ch n hw hcl h0 hn
      rw [recvN_drained h0 hcl, queueOf_empty h0]
      exact ⟨by simp, h0, hcl⟩
  | succ m ih =>
      intro ch n hw hcl hc hn
      obtain ⟨n', rfl⟩ : ∃ n', n = n' + 1 := ⟨n - 1, by omega⟩
      cases hw with
      | inl hwb =>
          have hcnt : 0 < ch.count := by omega
          have hstep : recvN (n' + 1) ch
              = ((bufGet ch ch.read_idx, true)
                  :: (recvN n' { ch with
                    read_idx := (ch.read_idx + 1) % ch.capacity
                    count := ch.count - 1 }).1,
                 (recvN n' { ch with
                    read_idx := (ch.read_idx + 1) % ch.capacity
                    count := ch.count - 1 }).2) := by
            show (match channel_recv_locked ch with
              | none => ([], ch)
              | some (r, ch') => ((r :: (recvN n' ch').1, (recvN n' ch').2))) = _
            rw [recv_locked_deq_buf hwb.1 hcnt]
          obtain ⟨ih1, ih2, ih3⟩ := ih (n := n')
            (Or.inl (WFbuf_dequeue hwb hcnt))
            (show ch.closed = true from hcl)
            (show ch.count - 1 = m by omega)
            (by omega)
          rw [hstep]
          refine ⟨?_, ih2, ih3⟩
          rw [queueOf_dequeue hwb hcnt]
          simp only [List.map_cons, List.cons_append, Nat.add_sub_add_right]
          rw [ih1]
      | inr hwu =>
          have hm : m = 0 := by have := hwu.2.2.2; omega
          subst hm
          have hstep : recvN (n' + 1) ch
              = ((bufGet ch 0, true)
                  :: (recvN n' { ch with count := 0 }).1,
                 (recvN n' { ch with count := 0 }).2) := by
            show (match channel_recv_locked ch with
              | none => ([], ch)
              | some (r, ch') => ((r :: (recvN n' ch').1, (recvN n' ch').2))) = _
            rw [recv_locked_deq_unbuf hwu.1 (by omega)]
          rw [hstep,
            recvN_drained (show ({ ch with count := 0 } : Channel).count = 0 from rfl)
              (show ({ ch with count := 0 } : Channel).closed = true from hcl)]
          refine ⟨?_, rfl, hcl⟩
          rw [queueOf_unbuf_one hwu hc]
          simp

theorem exec_capacity {ch : Channel} {evs : List Event} {ch' : Channel}
    (hx : Exec ch evs ch') : ch'.capacity = ch.capacity := by
  induction hx with
  | nil => rfl
  | cons hstep hrest ih => rw [ih, step_capacity hstep]

theorem ring_emod_eq {r c cap : Nat} :
    ((((r + c) % cap : Nat) : ℤ) - (r : ℤ)) % (cap : ℤ)
      = (c : ℤ) % (cap : ℤ) := by
  push_cast
  conv_lhs => rw [Int.sub_emod]
  rw [Int.emod_emod_of_dvd _ dvd_rfl, ← Int.sub_emod]
  simp

/-! ## The specified properties -/

/-- C2: for every buffered channel of capacity `k > 0`, over any execution
from the freshly created state, the values returned by completed receives
are a prefix of the values enqueued by completed sends in
mutex-acquisition order; when the channel ends empty the two sequences are
exactly equal — receivers observe `v1, ..., vn` in order. -/
theorem buffered_fifo {k : Nat} {ch ch' : Channel} {evs : List Event}
    (hk : 0 < k) (hc : channel_create k true true = some ch)
    (hx : Exec ch evs ch') :
    (∃ rest, receivedVals evs ++ rest = sentVals evs) ∧
    (ch'.count = 0 → receivedVals evs = sentVals evs) := by
  obtain ⟨hw', hq⟩ := exec_queue_buf hx (WFbuf_create hk hc)
  have h0 : queueOf ch = [] := queueOf_empty (by
    rw [create_ok] at hc
    obtain rfl := Option.some.inj hc
    rfl)
  rw [h0, List.nil_append] at hq
  constructor
  · exact ⟨queueOf ch', hq.symm⟩
  · intro hcnt
    rw [queueOf_empty hcnt, List.append_nil] at hq
    exact hq.symm

theorem buffered_fifo_witness :
    (0 : Nat) < 1 ∧
    ((∃ rest, receivedVals [Event.sendOk 5, Event.recvVal 5] ++ rest
        = sentVals [Event.sendOk 5, Event.recvVal 5]) ∧
     (fifoCh2.count = 0 →
        receivedVals [Event.sendOk 5, Event.recvVal 5]
          = sentVals [Event.sendOk 5, Event.recvVal 5])) :=
  ⟨by decide,
   buffered_fifo (by decide)
     (show channel_create 1 true true = some fifoCh0 by rfl)
     (Exec.cons
       (Step.sendOk (by decide)
         (show channel_send_buffered fifoCh0 5 = some (0, fifoCh1) by rfl))
       (Exec.cons
         (Step.recvVal
           (show channel_recv_locked fifoCh1 = some ((5, true), fifoCh2) by rfl))
         Exec.nil))⟩

/-- C3: on a closed channel, iterated receives first deliver every value
still enqueued, in FIFO order, and then return the drained-closed result
`(0.0, absent)`; the final state is a fixed point of `channel_recv` — the
drained-closed result repeats indefinitely with no blocking and no state
change. -/
theorem drain_then_close {ch : Channel} {n : Nat}
    (hw : WFbuf ch ∨ WFunbuf ch) (hcl : ch.closed = true)
    (hn : ch.count ≤ n) :
    (recvN n ch).1 = (queueOf ch).map (fun v => (v, true))
        ++ List.replicate (n - ch.count) ((0 : Val), false) ∧
    channel_recv_locked (recvN n ch).2 = some ((0, false), (recvN n ch).2) := by
  obtain ⟨h1, h2, h3⟩ := recvN_drain_aux ch.count hw hcl rfl hn
  exact ⟨h1, recv_locked_drained h2 h3⟩

theorem drain_then_close_witness :
    ((WFbuf chDrain ∨ WFunbuf chDrain) ∧ chDrain.closed = true
        ∧ chDrain.count ≤ 3) ∧
    ((recvN 3 chDrain).1 = (queueOf chDrain).map (fun v => (v, true))
        ++ List.replicate (3 - chDrain.count) ((0 : Val), false) ∧
     channel_recv_locked (recvN 3 chDrain).2
        = some ((0, false), (recvN 3 chDrain).2)) :=
  ⟨⟨Or.inl (by unfold WFbuf; decide), rfl, by decide⟩,
   drain_then_close (Or.inl (by unfold WFbuf; decide)) rfl (by decide)⟩

/-- C4: a send that acquires the mutex after a close returns the closed
signal `-1` and leaves the state untouched (both the buffered body and the
unbuffered first half), and no send step from a closed state ever writes
into the ring or changes `count`. -/
theorem closed_rejects_send :
    (∀ (ch : Channel) (v : Val), ch.closed = true →
      channel_send_buffered ch v = some (-1, ch)) ∧
    (∀ (ch : Channel) (v : Val) (a : Bool), ch.closed = true →
      channel_send_unbuffered_enter ch v a = some (.ret (-1) ch)) ∧
    (∀ (ch : Channel) (e : Event) (ch' : Channel), ch.closed = true →
      Step ch e ch' → isSendEvent e →
      ch'.buffer = ch.buffer ∧ ch'.count = ch.count) := by
  refine ⟨fun ch v h => send_buffered_closed v h,
    fun ch v a h => send_unbuf_enter_closed v a h, ?_⟩
  intro ch e ch' hcl hs hsend
  cases hs with
  | sendOk hcap h =>
      obtain ⟨hfalse, -, -⟩ := send_buffered_ok_inv h
      rw [hcl] at hfalse; cases hfalse
  | sendClosedBuf hcap h =>
      obtain ⟨rfl, -⟩ := send_buffered_neg_inv h; exact ⟨rfl, rfl⟩
  | deposit hcap h =>
      obtain ⟨hfalse, -, -⟩ := send_unbuf_enter_parked_inv h
      rw [hcl] at hfalse; cases hfalse
  | sendClosedUnbuf hcap h =>
      obtain ⟨-, rfl, -⟩ := send_unbuf_enter_ret_inv h; exact ⟨rfl, rfl⟩
  | sendFinish hcap h =>
      obtain ⟨-, rfl, -⟩ := send_unbuf_resume_inv h; exact ⟨rfl, rfl⟩
  | recvVal h => exact hsend.elim
  | recvClosed h => exact hsend.elim
  | close => exact hsend.elim

theorem closed_rejects_send_witness :
    chClosed.closed = true ∧
    channel_send_buffered chClosed 3 = some (-1, chClosed) :=
  ⟨rfl, closed_rejects_send.1 chClosed 3 rfl⟩

/-- C7: `channel_close` is idempotent — closing an already-closed channel
produces the identical state — and the closed flag is monotone: no atomic
step of any operation ever resets it to `false`. -/
theorem close_idempotent_monotone :
    (∀ ch : Channel, channel_close_locked (channel_close_locked ch)
        = channel_close_locked ch) ∧
    (∀ (ch : Channel) (e : Event) (ch' : Channel), ch.closed = true →
      Step ch e ch' → ch'.closed = true) :=
  ⟨fun _ => rfl, fun _ _ _ hcl hs => step_closed_mono hcl hs⟩

theorem close_idempotent_monotone_witness :
    chClosed.closed = true ∧ (channel_close_locked chClosed).closed = true :=
  ⟨rfl, close_idempotent_monotone.2 chClosed .close
    (channel_close_locked chClosed) rfl Step.close⟩

/-- C8: on a null handle, `channel_send` returns the closed signal `-1`
and `channel_recv` returns `(0.0, absent)`, both immediately — before the
mutex is acquired and without reading or writing any channel state. -/
theorem null_handle_immediate :
    channel_send_entry none = .ret (-1) ∧
    channel_recv_entry none = .ret 0 false :=
  ⟨rfl, rfl⟩

/-- C9: whenever `channel_send` returns the closed signal `-1` on a
non-null handle — from the buffered body, the unbuffered first half, or
the unbuffered resume (which never returns `-1`) — the channel state is
exactly the state at the mutex acquisition of that return path: a rejected
send enqueues nothing. -/
theorem send_closed_no_mutation :
    (∀ (ch : Channel) (v : Val) (ch' : Channel),
      channel_send_buffered ch v = some (-1, ch') → ch' = ch) ∧
    (∀ (ch : Channel) (v : Val) (a : Bool) (ch' : Channel),
      channel_send_unbuffered_enter ch v a = some (.ret (-1) ch') → ch' = ch) ∧
    (∀ (ch ch' : Channel),
      channel_send_unbuffered_resume ch = some (-1, ch') → ch' = ch) :=
  ⟨fun _ _ _ h => (send_buffered_neg_inv h).1,
   fun _ _ _ _ h => (send_unbuf_enter_ret_inv h).2.1,
   fun _ _ h => (send_unbuf_resume_inv h).2.1⟩

theorem send_closed_no_mutation_witness :
    channel_send_buffered chClosed 3 = some (-1, chClosed) ∧
    chClosed = chClosed :=
  ⟨rfl, send_closed_no_mutation.1 chClosed 3 chClosed rfl⟩

/-- C6: over every execution from a freshly created channel, a buffered
channel (`capacity = k > 0`) keeps `capacity = k`,
`(write_idx - read_idx) mod k = count mod k`, `count = k` exactly when the
ring is full (the buffered-send wait guard holds), and `count ≤ k`; an
unbuffered channel keeps `count ≤ 1`. -/
theorem ring_index_invariant {k : Nat} {ch ch' : Channel} {evs : List Event}
    (hc : channel_create k true true = some ch) (hx : Exec ch evs ch') :
    (0 < k → ch'.capacity = k ∧
      ((ch'.write_idx : ℤ) - (ch'.read_idx : ℤ)) % ((k : Nat) : ℤ)
        = (ch'.count : ℤ) % ((k : Nat) : ℤ) ∧
      (ch'.count = k ↔ ringFull ch') ∧ ch'.count ≤ k) ∧
    (k = 0 → ch'.count ≤ 1) := by
  constructor
  · intro hk
    obtain ⟨hw', -⟩ := exec_queue_buf hx (WFbuf_create hk hc)
    obtain ⟨hcap', hsome', hlen', hr', hcnt', hwix'⟩ := hw'
    have hck : ch.capacity = k := by
      rw [create_ok] at hc; obtain rfl := Option.some.inj hc; rfl
    have hcapk : ch'.capacity = k := by rw [exec_capacity hx, hck]
    rw [hcapk] at hcnt'
    refine ⟨hcapk, ?_, ?_, hcnt'⟩
    · rw [hwix', hcapk]
      exact ring_emod_eq
    · unfold ringFull
      rw [hcapk]
      omega
  · intro hk0
    subst hk0
    exact (exec_unbuf hx (WFunbuf_create hc)).2.2.2

theorem ring_index_invariant_witness :
    ((0 : Nat) < 1 → fifoCh2.capacity = 1 ∧
      ((fifoCh2.write_idx : ℤ) - (fifoCh2.read_idx : ℤ)) % (((1 : Nat) : Nat) : ℤ)
        = (fifoCh2.count : ℤ) % (((1 : Nat) : Nat) : ℤ) ∧
      (fifoCh2.count = 1 ↔ ringFull fifoCh2) ∧ fifoCh2.count ≤ 1) ∧
    ((1 : Nat) = 0 → fifoCh2.count ≤ 1) :=
  ring_index_invariant
    (show channel_create 1 true true = some fifoCh0 by rfl)
    (Exec.cons
      (Step.sendOk (by decide)
        (show channel_send_buffered fifoCh0 5 = some (0, fifoCh1) by rfl))
      (Exec.cons
        (Step.recvVal
          (show channel_recv_locked fifoCh1 = some ((5, true), fifoCh2) by rfl))
        Exec.nil))

/-- C10: on an unbuffered channel, over any execution from the created
state in which every lazy single-slot allocation succeeds, `count = 1`
implies the hand-off buffer is allocated (non-null, of length one) — so
the `buffer[0]` read in `channel_recv` at line 147 never dereferences a
null pointer. -/
theorem unbuffered_alloc_safety {ch ch' : Channel} {evs : List Event}
    (hc : channel_create 0 true true = some ch) (hx : Exec ch evs ch')
    (ha : allocsOk evs = true) :
    ch'.count = 1 → ∃ a, ch'.buffer = some [a] := by
  have hinit : UnbufAllocInv ch := by
    rw [create_ok] at hc
    obtain rfl := Option.some.inj hc
    exact ⟨Or.inl rfl, fun h1 => nomatch h1⟩
  exact (exec_unbuf_alloc hx (WFunbuf_create hc) hinit ha).2.2

theorem unbuffered_alloc_safety_witness :
    allocsOk [Event.deposit 9 true] = true ∧
    (unbCh1.count = 1 → ∃ a, unbCh1.buffer = some [a]) :=
  ⟨by decide,
   unbuffered_alloc_safety
     (show channel_create 0 true true = some unbCh0 by rfl)
     (Exec.cons
       (Step.deposit (by decide)
         (show channel_send_unbuffered_enter unbCh0 9 true
            = some (.parked unbCh1) by rfl))
       Exec.nil)
     (by decide)⟩

/-- C1 counter-evidence (code bug): on a fresh unbuffered channel, a send
deposits `42` and parks; `channel_close` then closes the channel while the
value is still unreceived (`count` is still 1); the sender resumes and the
final wait loop at lines 108-110 exits on `closed` — but lines 113-114
return `0` (ok) with no `closed` re-check and no receive ever having
taken the value.  The claim (and spec §4.1/§8.8) says this send must
return the closed signal `-1` and that ok implies a completed matching
receive; the code returns ok. -/
theorem unbuffered_send_close_race_returns_ok :
    channel_create 0 true true = some unbCh0 ∧
    channel_send_unbuffered_enter unbCh0 42 true
      = some (.parked ⟨some [42], 0, 0, 1, 0, false⟩) ∧
    channel_close_locked ⟨some [42], 0, 0, 1, 0, false⟩
      = ⟨some [42], 0, 0, 1, 0, true⟩ ∧
    channel_send_unbuffered_resume ⟨some [42], 0, 0, 1, 0, true⟩
      = some (0, ⟨some [42], 0, 0, 1, 0, true⟩) ∧
    (⟨some [42], 0, 0, 1, 0, true⟩ : Channel).count = 1 :=
  ⟨rfl, rfl, rfl, rfl, rfl⟩

/-- C5 counter-evidence (code bug): `channel_create` checks only the
`Channel`-struct `malloc` (line 33).  With `capacity = 1`, a successful
struct allocation and a failed ring allocation, it returns a non-null
handle whose ring `buffer` is NULL — the sentinel null handle required by
the claim is not returned, no partial state is freed, and the
`pthread_mutex_init`/`pthread_cond_init` results are ignored as well. -/
theorem create_unchecked_ring_alloc :
    channel_create 1 true false = some ⟨none, 0, 0, 0, 1, false⟩ :=
  rfl

end Flapc
